import Mathlib

/-!
Formal model of `src/procesador_imagenes/base.c`, an in-memory image
processing program (3-level pixel grid, bilinear interpolation, Gaussian
kernel generation, and a row-partitioned concurrent brightness adjustment).

The C code is shallowly embedded:
* `malloc`/`free` are modelled over an explicit allocator state `Heap`
  (a fresh-id counter plus the finite set of live block ids); an oracle
  `falla : Nat → Bool` decides which allocation attempts fail, so all
  failure paths of the C code are reachable in the model.
* pixel data is modelled by total functions `Nat → Nat → Nat → Nat`
  (row, column, channel ↦ 8-bit sample value);
* `float` arithmetic of the interpolation and kernel routines is modelled
  over `ℚ`; the claims proved below only involve float computations that
  are exact (multiplication by 0 and 1, integer values, exact division),
  so the rational model agrees with IEEE single precision there.
  `expf` and `M_PI` are abstracted as parameters.
-/

namespace Procesador

/-- Allocator state: the next fresh block id and the set of live blocks. -/
structure Heap where
  next : Nat
  live : Finset Nat
  deriving DecidableEq

/-- Heap well-formedness: every live block id was issued earlier. -/
def Heap.wf (h : Heap) : Prop := ∀ b ∈ h.live, b < h.next

/-- Model of `malloc`: the oracle `falla` decides whether this attempt
fails; a successful attempt returns a fresh block id. -/
def malloc (falla : Nat → Bool) (h : Heap) : Option Nat × Heap :=
  if falla h.next then (none, ⟨h.next + 1, h.live⟩)
  else (some h.next, ⟨h.next + 1, insert h.next h.live⟩)

/-- Model of `free` on one block. -/
def free (b : Nat) (h : Heap) : Heap := ⟨h.next, h.live.erase b⟩

/-- Model of a C loop freeing a list of blocks in order. -/
def liberarLista (bs : List Nat) (h : Heap) : Heap :=
  bs.foldl (fun h b => free b h) h

/-- Level 3 of `asignarMatriz3D` (base.c:83-102): the loop allocating the
`canales`-byte channel block of each of the `n` pixels of one row.  On a
failure at pixel `x` the C code frees pixels `0..x-1` of the row before
propagating; the recursion frees the same set of blocks. -/
def asignarPixeles (falla : Nat → Bool) : Nat → Heap → Option (List Nat) × Heap
  | 0, h => (some [], h)
  | n + 1, h =>
    match malloc falla h with
    | (none, h1) => (none, h1)
    | (some p, h1) =>
      match asignarPixeles falla n h1 with
      | (none, h2) => (none, free p h2)
      | (some ps, h2) => (some (p :: ps), h2)

/-- Level 2 of `asignarMatriz3D` (base.c:67-103): the loop allocating each
row's column array and then its pixels.  On a failure the C code frees the
pixels and column arrays of all rows allocated so far before propagating;
the recursion frees the same set of blocks. -/
def asignarFilas (falla : Nat → Bool) (ancho : Nat) :
    Nat → Heap → Option (List (Nat × List Nat)) × Heap
  | 0, h => (some [], h)
  | n + 1, h =>
    match malloc falla h with
    | (none, h1) => (none, h1)
    | (some r, h1) =>
      match asignarPixeles falla ancho h1 with
      | (none, h2) => (none, free r h2)
      | (some ps, h2) =>
        match asignarFilas falla ancho n h2 with
        | (none, h3) => (none, free r (liberarLista ps h3))
        | (some filas, h3) => (some ((r, ps) :: filas), h3)

/-- Model of `asignarMatriz3D` (base.c:51-106).  Returns the top block id
together with, per row, the row block id and its pixel block ids.
Non-positive parameters are rejected before anything is allocated. -/
def asignarMatriz3D (falla : Nat → Bool) (alto ancho canales : Int) (h : Heap) :
    Option (Nat × List (Nat × List Nat)) × Heap :=
  if alto ≤ 0 ∨ ancho ≤ 0 ∨ canales ≤ 0 then (none, h)
  else
    match malloc falla h with
    | (none, h1) => (none, h1)
    | (some m, h1) =>
      match asignarFilas falla ancho.toNat alto.toNat h1 with
      | (none, h2) => (none, free m h2)
      | (some filas, h2) => (some (m, filas), h2)

lemma liberarLista_live (bs : List Nat) (h : Heap) :
    (liberarLista bs h).live = h.live \ bs.toFinset := by
  induction bs generalizing h with
  | nil => simp [liberarLista]
  | cons b bs ih =>
    simp only [liberarLista, List.foldl_cons] at *
    rw [ih]
    ext a
    simp [free, Finset.mem_sdiff, Finset.mem_erase]
    tauto

lemma liberarLista_next (bs : List Nat) (h : Heap) :
    (liberarLista bs h).next = h.next := by
  induction bs generalizing h with
  | nil => rfl
  | cons b bs ih => simp [liberarLista, List.foldl_cons] at *; rw [ih]; rfl

/-- Erasing a fresh head block from a heap extended by it restores the
original live set. -/
lemma union_sdiff_fresh (A S : Finset Nat) (hd : ∀ b ∈ A, b ∉ S) :
    (A ∪ S) \ S = A := by
  ext b
  simp only [Finset.mem_sdiff, Finset.mem_union]
  constructor
  · rintro ⟨hb | hb, hnb⟩
    · exact hb
    · exact absurd hb hnb
  · intro hb
    exact ⟨Or.inl hb, hd b hb⟩

/-- Full specification of `asignarPixeles`: on failure the live set is
restored; on success exactly the returned fresh blocks were added. -/
lemma asignarPixeles_spec (falla : Nat → Bool) :
    ∀ (n : Nat) (h : Heap), Heap.wf h →
      ((asignarPixeles falla n h).1 = none →
          (asignarPixeles falla n h).2.live = h.live) ∧
      (∀ ps, (asignarPixeles falla n h).1 = some ps →
          (asignarPixeles falla n h).2.live = h.live ∪ ps.toFinset ∧
          (∀ b ∈ ps, h.next ≤ b) ∧ ps.length = n) ∧
      h.next ≤ (asignarPixeles falla n h).2.next ∧
      Heap.wf (asignarPixeles falla n h).2 := by
  intro n
  induction n with
  | zero =>
    intro h hw
    refine ⟨?_, ?_, le_refl _, hw⟩
    · intro hc
      simp [asignarPixeles] at hc
    · intro ps hps
      simp [asignarPixeles] at hps
      subst hps
      simp [asignarPixeles]
  | succ n ih =>
    intro h hw
    by_cases hf : falla h.next
    · have heq : asignarPixeles falla (n + 1) h = (none, ⟨h.next + 1, h.live⟩) := by
        simp [asignarPixeles, malloc, hf]
      rw [heq]
      refine ⟨fun _ => rfl, ?_, Nat.le_succ h.next, ?_⟩
      · intro ps hps
        simp at hps
      · intro b hb
        exact Nat.lt_succ_of_lt (hw b hb)
    · have hw1 : Heap.wf ⟨h.next + 1, insert h.next h.live⟩ := by
        intro b hb
        show b < h.next + 1
        rcases Finset.mem_insert.mp hb with hb | hb
        · omega
        · exact Nat.lt_succ_of_lt (hw b hb)
      obtain ⟨ihNone, ihSome, ihNext, ihWf⟩ :=
        ih ⟨h.next + 1, insert h.next h.live⟩ hw1
      rcases hr : asignarPixeles falla n ⟨h.next + 1, insert h.next h.live⟩
        with ⟨o, h2⟩
      rw [hr] at ihNone ihSome ihNext ihWf
      have ihNext' : h.next + 1 ≤ h2.next := ihNext
      cases o with
      | none =>
        have heq : asignarPixeles falla (n + 1) h = (none, free h.next h2) := by
          simp [asignarPixeles, malloc, hf, hr]
        rw [heq]
        refine ⟨fun _ => ?_, ?_, ?_, ?_⟩
        · have h2l : h2.live = insert h.next h.live := ihNone rfl
          show h2.live.erase h.next = h.live
          rw [h2l]
          exact Finset.erase_insert (fun hc => Nat.lt_irrefl _ (hw _ hc))
        · intro ps hps
          simp at hps
        · show h.next ≤ h2.next
          omega
        · intro b hb
          exact ihWf b (Finset.mem_of_mem_erase hb)
      | some ps =>
        obtain ⟨hlive, hfresh, hlen⟩ := ihSome ps rfl
        have hlive' : h2.live = insert h.next h.live ∪ ps.toFinset := hlive
        have hfresh' : ∀ b ∈ ps, h.next + 1 ≤ b := hfresh
        have heq : asignarPixeles falla (n + 1) h = (some (h.next :: ps), h2) := by
          simp [asignarPixeles, malloc, hf, hr]
        rw [heq]
        refine ⟨?_, ?_, show h.next ≤ h2.next by omega, ihWf⟩
        · intro hc
          simp at hc
        · intro qs hqs
          have hqs' : h.next :: ps = qs := by simpa using hqs
          subst hqs'
          refine ⟨?_, ?_, by simp [hlen]⟩
          · show h2.live = h.live ∪ (h.next :: ps).toFinset
            rw [hlive']
            ext a
            simp only [Finset.mem_union, Finset.mem_insert, List.toFinset_cons,
              List.mem_toFinset]
            tauto
          · intro b hb
            rcases List.mem_cons.mp hb with hb | hb
            · subst hb; exact le_refl _
            · have hfb : h.next + 1 ≤ b := hfresh' b hb
              omega

/-- Block ids acquired for a list of rows: each row's column-array block
followed by its pixel blocks. -/
def bloquesFilas (filas : List (Nat × List Nat)) : List Nat :=
  filas.flatMap (fun f => f.1 :: f.2)

/-- Full specification of `asignarFilas`: on failure the live set is
restored; on success exactly the returned fresh blocks were added. -/
lemma asignarFilas_spec (falla : Nat → Bool) (ancho : Nat) :
    ∀ (n : Nat) (h : Heap), Heap.wf h →
      ((asignarFilas falla ancho n h).1 = none →
          (asignarFilas falla ancho n h).2.live = h.live) ∧
      (∀ filas, (asignarFilas falla ancho n h).1 = some filas →
          (asignarFilas falla ancho n h).2.live
            = h.live ∪ (bloquesFilas filas).toFinset ∧
          (∀ b ∈ bloquesFilas filas, h.next ≤ b) ∧
          filas.length = n ∧ ∀ f ∈ filas, f.2.length = ancho) ∧
      h.next ≤ (asignarFilas falla ancho n h).2.next ∧
      Heap.wf (asignarFilas falla ancho n h).2 := by
  intro n
  induction n with
  | zero =>
    intro h hw
    refine ⟨?_, ?_, le_refl _, hw⟩
    · intro hc
      simp [asignarFilas] at hc
    · intro filas hfs
      simp [asignarFilas] at hfs
      subst hfs
      simp [asignarFilas, bloquesFilas]
  | succ n ih =>
    intro h hw
    by_cases hf : falla h.next
    · have heq : asignarFilas falla ancho (n + 1) h
          = (none, ⟨h.next + 1, h.live⟩) := by
        simp [asignarFilas, malloc, hf]
      rw [heq]
      refine ⟨fun _ => rfl, ?_, Nat.le_succ h.next, ?_⟩
      · intro fs hfs
        simp at hfs
      · intro b hb
        exact Nat.lt_succ_of_lt (hw b hb)
    · have hw1 : Heap.wf ⟨h.next + 1, insert h.next h.live⟩ := by
        intro b hb
        show b < h.next + 1
        rcases Finset.mem_insert.mp hb with hb | hb
        · omega
        · exact Nat.lt_succ_of_lt (hw b hb)
      obtain ⟨pxNone, pxSome, pxNext, pxWf⟩ :=
        asignarPixeles_spec falla ancho ⟨h.next + 1, insert h.next h.live⟩ hw1
      rcases hp : asignarPixeles falla ancho ⟨h.next + 1, insert h.next h.live⟩
        with ⟨op, h2⟩
      rw [hp] at pxNone pxSome pxNext pxWf
      have pxNext' : h.next + 1 ≤ h2.next := pxNext
      cases op with
      | none =>
        have heq : asignarFilas falla ancho (n + 1) h
            = (none, free h.next h2) := by
          simp [asignarFilas, malloc, hf, hp]
        rw [heq]
        refine ⟨fun _ => ?_, ?_, ?_, ?_⟩
        · have h2l : h2.live = insert h.next h.live := pxNone rfl
          show h2.live.erase h.next = h.live
          rw [h2l]
          exact Finset.erase_insert (fun hc => Nat.lt_irrefl _ (hw _ hc))
        · intro fs hfs
          simp at hfs
        · show h.next ≤ h2.next
          omega
        · intro b hb
          exact pxWf b (Finset.mem_of_mem_erase hb)
      | some ps =>
        obtain ⟨pxLive, pxFresh, pxLen⟩ := pxSome ps rfl
        have pxLive' : h2.live = insert h.next h.live ∪ ps.toFinset := pxLive
        have pxFresh' : ∀ b ∈ ps, h.next + 1 ≤ b := pxFresh
        obtain ⟨flNone, flSome, flNext, flWf⟩ := ih h2 pxWf
        rcases hq : asignarFilas falla ancho n h2 with ⟨oq, h3⟩
        rw [hq] at flNone flSome flNext flWf
        have flNext' : h2.next ≤ h3.next := flNext
        cases oq with
        | none =>
          have heq : asignarFilas falla ancho (n + 1) h
              = (none, free h.next (liberarLista ps h3)) := by
            simp [asignarFilas, malloc, hf, hp, hq]
          rw [heq]
          refine ⟨fun _ => ?_, ?_, ?_, ?_⟩
          · have h3l : h3.live = h2.live := flNone rfl
            show (liberarLista ps h3).live.erase h.next = h.live
            rw [liberarLista_live, h3l, pxLive']
            have hstep : (insert h.next h.live ∪ ps.toFinset) \ ps.toFinset
                = insert h.next h.live := by
              apply union_sdiff_fresh
              intro b hb hbs
              have hfr := pxFresh' b (by simpa using hbs)
              rcases Finset.mem_insert.mp hb with hb | hb
              · omega
              · have := hw b hb; omega
            rw [hstep]
            exact Finset.erase_insert (fun hc => Nat.lt_irrefl _ (hw _ hc))
          · intro fs hfs
            simp at hfs
          · show h.next ≤ (liberarLista ps h3).next
            rw [liberarLista_next]
            omega
          · intro b hb
            have hb1 : b ∈ (liberarLista ps h3).live :=
              Finset.mem_of_mem_erase hb
            rw [liberarLista_live] at hb1
            have hb2 : b ∈ h3.live := (Finset.mem_sdiff.mp hb1).1
            have : b < h3.next := flWf b hb2
            show b < (liberarLista ps h3).next
            rw [liberarLista_next]
            exact this
        | some filas =>
          obtain ⟨flLive, flFresh, flLen, flAncho⟩ := flSome filas rfl
          have flFresh' : ∀ b ∈ bloquesFilas filas, h2.next ≤ b := flFresh
          have heq : asignarFilas falla ancho (n + 1) h
              = (some ((h.next, ps) :: filas), h3) := by
            simp [asignarFilas, malloc, hf, hp, hq]
          rw [heq]
          refine ⟨?_, ?_, show h.next ≤ h3.next by omega, flWf⟩
          · intro hc
            simp at hc
          · intro gs hgs
            have hgs' : (h.next, ps) :: filas = gs := by simpa using hgs
            subst hgs'
            refine ⟨?_, ?_, by simp [flLen], ?_⟩
            · show h3.live
                = h.live ∪ (bloquesFilas ((h.next, ps) :: filas)).toFinset
              rw [flLive, pxLive']
              ext a
              simp only [bloquesFilas, List.flatMap_cons, List.toFinset_cons,
                List.toFinset_append, Finset.mem_union, Finset.mem_insert,
                List.mem_toFinset]
              tauto
            · intro b hb
              simp only [bloquesFilas, List.flatMap_cons, List.mem_append,
                List.mem_cons] at hb
              rcases hb with (hb | hb) | hb
              · subst hb; exact le_refl _
              · have := pxFresh' b hb; omega
              · have := flFresh' b (by simpa [bloquesFilas] using hb); omega
            · intro f hfm
              rcases List.mem_cons.mp hfm with hfm | hfm
              · subst hfm; exact pxLen
              · exact flAncho f hfm
/-- Model of `liberarImagen`'s image structure (base.c:35-40): dimensions
plus the block ids of the 3-level store (top block, and per row the row
block with its pixel blocks).  `pixeles = none` models a `NULL` pointer.
A well-formed image has `alto` rows of `ancho` pixel blocks each, which is
what the frees bounded by `alto`/`ancho` in the C loop rely on. -/
structure ImagenInfo where
  ancho : Int
  alto : Int
  canales : Int
  pixeles : Option (Nat × List (Nat × List Nat))
  deriving DecidableEq

/-- Model of `liberarImagen` (base.c:308-322): when the pixel store is
present, frees each row's pixel blocks then the row block, then the top
block, and resets the structure to the empty state; otherwise only the
reset happens. -/
def liberarImagen (s : ImagenInfo × Heap) : ImagenInfo × Heap :=
  match s.1.pixeles with
  | none => (⟨0, 0, 0, none⟩, s.2)
  | some (m, filas) =>
      (⟨0, 0, 0, none⟩,
        free m (filas.foldl (fun h f => free f.1 (liberarLista f.2 h)) s.2))

lemma liberarFilas_live (filas : List (Nat × List Nat)) (h : Heap) :
    (filas.foldl (fun h f => free f.1 (liberarLista f.2 h)) h).live
      = h.live \ (bloquesFilas filas).toFinset := by
  induction filas generalizing h with
  | nil => simp [bloquesFilas]
  | cons f fs ih =>
    simp only [List.foldl_cons]
    rw [ih]
    ext a
    simp only [free, liberarLista_live, bloquesFilas, List.flatMap_cons,
      Finset.mem_sdiff, Finset.mem_erase, List.toFinset_append,
      List.toFinset_cons, List.mem_toFinset, Finset.mem_union,
      Finset.mem_insert]
    tauto

/-- Pixel-level view of an image: dimensions plus the stored samples
(`pix y x c` is `pixeles[y][x][c]`, an 8-bit value). -/
structure ImagenGrid where
  alto : Nat
  ancho : Nat
  canales : Nat
  pix : Nat → Nat → Nat → Nat

/-- Data path of `cargarImagen` (base.c:329-377): the decoded flat buffer
`datos` is copied into the 3-level store.  The reported channel count is
coerced to 1 unless it is 1 or 3 (base.c:339), and the copy loop indexes
the buffer with the coerced count `info->canales` (base.c:368). -/
def cargarImagenDatos (datos : Nat → Nat) (ancho alto canalesOrig : Nat) :
    ImagenGrid :=
  let canales := if canalesOrig = 1 ∨ canalesOrig = 3 then canalesOrig else 1
  ⟨alto, ancho, canales, fun y x c => datos ((y * ancho + x) * canales + c)⟩

/-- Data path of `guardarPNG` (base.c:416-427): the 3-level store is
flattened row-major interleaved, writing `datos1D[(y*ancho+x)*canales+c]`
in loop order `y`, `x`, `c`. -/
def guardarDatos (g : ImagenGrid) : List Nat :=
  (List.range g.alto).flatMap fun y =>
    (List.range g.ancho).flatMap fun x =>
      (List.range g.canales).map fun c => g.pix y x c

/-- Bounds-checked pixel read: `none` models an out-of-bounds (undefined
behaviour) access `img[y][x][c]`. -/
def leerPixel (g : ImagenGrid) (y x : Int) (c : Nat) : Option Nat :=
  if 0 ≤ y ∧ y < (g.alto : Int) ∧ 0 ≤ x ∧ x < (g.ancho : Int) ∧ c < g.canales
  then some (g.pix y.toNat x.toNat c) else none

/-- The C lower clamp `if (v < 0) v = 0;` (base.c:188-189). -/
def clampInf (v : Int) : Int := if v < 0 then 0 else v

/-- The C upper clamp `if (v >= lim) v = lim - 1;` (base.c:190-191). -/
def clampSup (v lim : Int) : Int := if lim ≤ v then lim - 1 else v

/-- Model of `interpolacionBilineal` (base.c:178-220) over exact rational
arithmetic.  `x0,y0` are floored, `x1,y1` are their successors; `x0,y0`
are clamped only from below and `x1,y1` only from above, exactly as in the
C code.  The four corner reads go through `leerPixel`, so a read outside
the grid yields `none`.  The final `(unsigned char)(resultado + 0.5f)`
cast is modelled as `Int.toNat ∘ Int.floor`, which agrees with the C
truncation for the non-negative in-range results the claims are about. -/
def interpolacionBilineal (g : ImagenGrid) (x y : ℚ) (c : Nat) : Option Nat :=
  let x0 : Int := clampInf ⌊x⌋
  let y0 : Int := clampInf ⌊y⌋
  let x1 : Int := clampSup (⌊x⌋ + 1) (g.ancho : Int)
  let y1 : Int := clampSup (⌊y⌋ + 1) (g.alto : Int)
  let a : ℚ := x - (x0 : ℚ)
  let b : ℚ := y - (y0 : ℚ)
  match leerPixel g y0 x0 c, leerPixel g y0 x1 c,
        leerPixel g y1 x0 c, leerPixel g y1 x1 c with
  | some v00, some v10, some v01, some v11 =>
      some (Int.toNat ⌊(1 - a) * (1 - b) * (v00 : ℚ) + a * (1 - b) * (v10 : ℚ)
        + (1 - a) * b * (v01 : ℚ) + a * b * (v11 : ℚ) + 1 / 2⌋)
  | _, _, _, _ => none

/-- Error cases of `generarKernelGaussiano`, one per distinct `fprintf`
diagnostic of the C code (base.c:235-264). -/
inductive ErrorKernel where
  | tamanoPar
  | sigmaNoPositivo
  | memoria
  deriving DecidableEq

/-- The raw (unnormalized) Gaussian taps (base.c:267-289):
`kernel[ky+offset][kx+offset] = (1/(2πσ²)) · exp(-(kx²+ky²)/(2σ²))` with
`offset = tamKernel / 2`.  `expF` and `piF` abstract `expf` and `M_PI`. -/
def kernelCrudo (expF : ℚ → ℚ) (piF : ℚ) (tam : Nat) (sigma : ℚ) :
    List (List ℚ) :=
  let offset : Int := (tam : Int) / 2
  (List.range tam).map fun i =>
    (List.range tam).map fun j =>
      (1 / (2 * piF * sigma * sigma))
        * expF (-(((j : Int) - offset) * ((j : Int) - offset)
            + ((i : Int) - offset) * ((i : Int) - offset))
          / (2 * sigma * sigma))

/-- The normalization pass of `generarKernelGaussiano` (base.c:291-299):
every tap is divided by the accumulated sum, provided that sum is strictly
positive; otherwise the taps are left untouched. -/
def normalizarKernel (crudo : List (List ℚ)) : List (List ℚ) :=
  let suma := (crudo.map List.sum).sum
  if 0 < suma then crudo.map fun fila => fila.map fun v => v / suma
  else crudo

/-- Model of `generarKernelGaussiano` (base.c:233-302): validates the size
(odd and positive) and sigma before anything is allocated, allocates the
row array and rows (with rollback of the rows allocated so far on a
failure, base.c:254-265), computes the raw taps and normalizes them by
their sum when that sum is strictly positive (base.c:293-299). -/
def generarKernelGaussiano (falla : Nat → Bool) (expF : ℚ → ℚ) (piF : ℚ)
    (tamKernel : Int) (sigma : ℚ) (h : Heap) :
    Except ErrorKernel (List (List ℚ)) × Heap :=
  if tamKernel ≤ 0 ∨ tamKernel % 2 = 0 then (Except.error ErrorKernel.tamanoPar, h)
  else if sigma ≤ 0 then (Except.error ErrorKernel.sigmaNoPositivo, h)
  else
    match malloc falla h with
    | (none, h1) => (Except.error ErrorKernel.memoria, h1)
    | (some k, h1) =>
      match asignarPixeles falla tamKernel.toNat h1 with
      | (none, h2) => (Except.error ErrorKernel.memoria, free k h2)
      | (some _, h2) =>
        (Except.ok (normalizarKernel (kernelCrudo expF piF tamKernel.toNat sigma)),
          h2)

/-- The per-sample brightness transform of `ajustarBrilloHilo`
(base.c:465-467): `clamp(sample + delta, 0, 255)` in `int` arithmetic. -/
def clampBrillo (v : Nat) (delta : Int) : Nat :=
  let nuevoValor : Int := (v : Int) + delta
  if nuevoValor < 0 then 0
  else if 255 < nuevoValor then 255 else nuevoValor.toNat

/-- Effect of one worker of `ajustarBrilloHilo` (base.c:460-472): applies
the brightness transform in place to every channel of every pixel of the
row range `[inicio, fin)`. -/
def ajustarBrilloHilo (pixeles : Nat → Nat → Nat → Nat)
    (inicio fin ancho canales : Nat) (delta : Int) :
    Nat → Nat → Nat → Nat :=
  fun y x c =>
    if inicio ≤ y ∧ y < fin ∧ x < ancho ∧ c < canales
    then clampBrillo (pixeles y x c) delta else pixeles y x c

/-- Workers `i, i+1, …, i+fuel-1` of `ajustarBrilloConcurrente`, with the
row partition of base.c:493-494: worker `i` gets rows
`[i·filasPorHilo, min((i+1)·filasPorHilo, alto))`.  The workers write
disjoint row ranges, so executing them in sequence computes the same grid
as any interleaving of the C threads. -/
def correrHilos (ancho canales : Nat) (delta : Int) (filasPorHilo alto : Nat)
    (i : Nat) : Nat → (Nat → Nat → Nat → Nat) → (Nat → Nat → Nat → Nat)
  | 0, g => g
  | fuel + 1, g =>
    correrHilos ancho canales delta filasPorHilo alto (i + 1) fuel
      (ajustarBrilloHilo g (i * filasPorHilo)
        (min ((i + 1) * filasPorHilo) alto) ancho canales delta)

/-- Model of `ajustarBrilloConcurrente` (base.c:477-512) generalized to
`numHilos` workers (the C code fixes `numHilos = 2`; the specification's
`ParallelPointTransform.apply` takes the worker count as a parameter):
`filasPorHilo = ceil(alto / numHilos)` rows per worker. -/
def ajustarBrilloConcurrente (alto ancho canales : Nat) (delta : Int)
    (numHilos : Nat) (g : Nat → Nat → Nat → Nat) : Nat → Nat → Nat → Nat :=
  let filasPorHilo := (alto + numHilos - 1) / numHilos
  correrHilos ancho canales delta filasPorHilo alto 0 numHilos g

/-- Reference definition, from the specification's words: a single-threaded
row-by-row application of the same transform to every channel of every
pixel. -/
def ajustarBrilloSecuencial (alto ancho canales : Nat) (delta : Int)
    (g : Nat → Nat → Nat → Nat) : Nat → Nat → Nat → Nat :=
  fun y x c =>
    if y < alto ∧ x < ancho ∧ c < canales
    then clampBrillo (g y x c) delta else g y x c

/-- Observable thread-management events of `ajustarBrilloConcurrente`:
a successful `pthread_create`, a failed `pthread_create`, a
`pthread_join`. -/
inductive Evento where
  | creado : Nat → Evento
  | falloCrear : Nat → Evento
  | unido : Nat → Evento
  deriving DecidableEq

/-- The dispatch loop of `ajustarBrilloConcurrente` (base.c:491-502):
starts workers `i, i+1, …` while `fuel` lasts; if `pthread_create` fails
for a worker the function returns right there (base.c:498-501).  Returns
the event list and whether the loop completed. -/
def crearHilos (falla : Nat → Bool) : Nat → Nat → List Evento × Bool
  | _, 0 => ([], true)
  | i, fuel + 1 =>
    if falla i then ([Evento.falloCrear i], false)
    else
      let r := crearHilos falla (i + 1) fuel
      (Evento.creado i :: r.1, r.2)

/-- Thread-management trace of `ajustarBrilloConcurrente` (base.c:491-509):
the dispatch loop followed — only when every `pthread_create` succeeded —
by the join loop over all workers. -/
def ajustarBrilloTraza (falla : Nat → Bool) (numHilos : Nat) : List Evento :=
  let r := crearHilos falla 0 numHilos
  if r.2 then r.1 ++ (List.range numHilos).map Evento.unido else r.1

lemma range_flatMap_map (b : Nat) (f : Nat → Nat) :
    ∀ a : Nat,
      (List.range a).flatMap
          (fun y => (List.range b).map fun t => f (y * b + t))
        = (List.range (a * b)).map f := by
  intro a
  induction a with
  | zero => simp
  | succ a ih =>
    rw [List.range_succ, List.flatMap_append, ih, List.flatMap_singleton]
    have hab : (a + 1) * b = a * b + b := by ring
    rw [hab, List.range_add, List.map_append, List.map_map]
    rfl

lemma sum_map_div (l : List ℚ) (s : ℚ) :
    (l.map fun v => v / s).sum = l.sum / s := by
  induction l with
  | nil => simp
  | cons v l ih => simp [ih, add_div]

lemma suma_kernel_div (k : List (List ℚ)) (s : ℚ) :
    ((k.map fun fila => fila.map fun v => v / s).map List.sum).sum
      = (k.map List.sum).sum / s := by
  induction k with
  | nil => simp
  | cons fila k ih =>
    simp only [List.map_cons, List.sum_cons]
    rw [sum_map_div, ih, add_div]

/-- The C rounding cast `(unsigned char)(v + 0.5f)` is the identity on an
integer sample value. -/
lemma redondeoNat (v : Nat) : Int.toNat ⌊(v : ℚ) + 1 / 2⌋ = v := by
  rw [add_comm, Int.floor_add_nat]
  have h0 : ⌊(1 / 2 : ℚ)⌋ = 0 := by
    rw [Int.floor_eq_zero_iff]
    constructor <;> norm_num
  rw [h0]
  simp

/-- `numHilos` workers of `ceil(alto/numHilos)` rows each cover all rows. -/
lemma ceil_div_mul_ge (alto n : Nat) (hn : 1 ≤ n) :
    alto ≤ n * ((alto + n - 1) / n) := by
  have h1 : n * ((alto + n - 1) / n) + (alto + n - 1) % n = alto + n - 1 :=
    Nat.div_add_mod _ n
  have h2 : (alto + n - 1) % n < n := Nat.mod_lt _ (by omega)
  set M := n * ((alto + n - 1) / n) with hM
  set R := (alto + n - 1) % n with hR
  omega

/-- Running workers `i..i+fuel-1` transforms exactly the samples whose row
lies in `[i·f, min((i+fuel)·f, alto))`: the row ranges are disjoint, so
each sample is transformed at most once. -/
lemma correrHilos_pointwise (ancho canales : Nat) (delta : Int) (f alto : Nat) :
    ∀ (fuel i : Nat) (g : Nat → Nat → Nat → Nat) (y x c : Nat),
      correrHilos ancho canales delta f alto i fuel g y x c
        = if i * f ≤ y ∧ y < min ((i + fuel) * f) alto ∧ x < ancho ∧ c < canales
          then clampBrillo (g y x c) delta else g y x c := by
  intro fuel
  induction fuel with
  | zero =>
    intro i g y x c
    have e0 : (i + 0) * f = i * f := by ring
    rw [correrHilos, e0, if_neg]
    rintro ⟨h1, h2, -, -⟩
    have := lt_of_lt_of_le h2 (min_le_left _ _)
    omega
  | succ fuel ih =>
    intro i g y x c
    rw [correrHilos, ih]
    simp only [ajustarBrilloHilo]
    have e1 : (i + 1) * f = i * f + f := by ring
    have e2 : (i + (fuel + 1)) * f = i * f + f + fuel * f := by ring
    have e3 : (i + 1 + fuel) * f = i * f + f + fuel * f := by ring
    rw [e1, e2, e3]
    split_ifs <;> first | rfl | (exfalso; omega)

/-- If the first `pthread_create` failure in the dispatch loop starting at
worker `i` happens at worker `i + k`, the loop returns right there: the
trace is the successful creations followed by the failure, with no joins. -/
lemma crearHilos_fallo (falla : Nat → Bool) :
    ∀ (fuel k i : Nat), k < fuel → falla (i + k) = true →
      (∀ j, i ≤ j → j < i + k → falla j = false) →
      crearHilos falla i fuel
        = ((List.range' i k).map Evento.creado
            ++ [Evento.falloCrear (i + k)], false) := by
  intro fuel
  induction fuel with
  | zero =>
    intro k i hk
    exact absurd hk (Nat.not_lt_zero k)
  | succ fuel ih =>
    intro k i hk hfk hprev
    cases k with
    | zero =>
      have hfi : falla i = true := by simpa using hfk
      simp [crearHilos, hfi]
    | succ k =>
      have h0 : falla i = false := hprev i (le_refl i) (by omega)
      have hstep : crearHilos falla i (fuel + 1)
          = (Evento.creado i :: (crearHilos falla (i + 1) fuel).1,
             (crearHilos falla (i + 1) fuel).2) := by
        simp [crearHilos, h0]
      have hrec := ih k (i + 1) (by omega)
        (by rw [show i + 1 + k = i + (k + 1) by omega]; exact hfk)
        (fun j hj1 hj2 => hprev j (by omega) (by omega))
      rw [hstep, hrec, List.range'_succ,
        show i + (k + 1) = i + 1 + k by omega]
      simp

/-- Claim C1: the claim says bilinear interpolation clamps all four corner
indices `x0,y0,x1,y1` independently into range and reads only in-bounds
pixels, for every real coordinate.  The code clamps `x0,y0` only from
below and `x1,y1` only from above (base.c:188-191), so at `x = -3/2` on a
1×1 grid `x1 = ⌊x⌋+1 = -1` stays negative and `img[y0][x1]` is an
out-of-bounds read (modelled as `none`), instead of the border pixel value
`some 7` the claim requires. -/
theorem interpolacion_lee_fuera_de_rango :
    interpolacionBilineal ⟨1, 1, 1, fun _ _ _ => 7⟩ (-(3 : ℚ) / 2) 0 0
      = none := by
  have hfx : ⌊(-(3 : ℚ) / 2)⌋ = -2 := by norm_num [Int.floor_eq_iff]
  simp only [interpolacionBilineal, hfx, Int.floor_zero]
  norm_num [clampInf, clampSup, leerPixel]

/-- Claim C2 (corrected): if `pthread_create` fails for worker `i` after
workers `0..i-1` were started, `ajustarBrilloConcurrente` returns at once
(base.c:498-501): the trace is the successful creations followed by the
failure, and no worker is ever joined on this path — contrary to the
claim, the already-started workers are left unjoined. -/
theorem ajustarBrillo_fallo_sin_join (falla : Nat → Bool) (numHilos i : Nat)
    (hi : i < numHilos) (hfi : falla i = true)
    (hprev : ∀ j, j < i → falla j = false) :
    ajustarBrilloTraza falla numHilos
      = (List.range i).map Evento.creado ++ [Evento.falloCrear i] ∧
    ∀ j, Evento.unido j ∉ ajustarBrilloTraza falla numHilos := by
  have h := crearHilos_fallo falla numHilos i 0 hi (by simpa using hfi)
    (fun j _ hj => hprev j (by omega))
  have htr : ajustarBrilloTraza falla numHilos
      = (List.range' 0 i).map Evento.creado ++ [Evento.falloCrear (0 + i)] := by
    simp [ajustarBrilloTraza, h]
  rw [htr]
  constructor
  · rw [List.range_eq_range']
    simp
  · intro j
    simp [List.mem_append, List.mem_map]

/-- Claim C2, counterexample to the claim as stated: with two workers and
`pthread_create` failing for worker 1, worker 0 has been started, yet the
call returns without joining it — the error is surfaced with worker 0
still unjoined. -/
theorem ajustarBrillo_fallo_sin_join_contraejemplo :
    Evento.creado 0 ∈ ajustarBrilloTraza (fun i => decide (i = 1)) 2 ∧
    Evento.unido 0 ∉ ajustarBrilloTraza (fun i => decide (i = 1)) 2 := by
  decide

/-- Witness for C2's theorem at a concrete input. -/
theorem ajustarBrillo_fallo_sin_join_witness :
    ajustarBrilloTraza (fun i => decide (i = 1)) 2
      = (List.range 1).map Evento.creado ++ [Evento.falloCrear 1] :=
  (ajustarBrillo_fallo_sin_join (fun i => decide (i = 1)) 2 1 (by decide)
    (by decide) (by decide)).1

/-- Claim C3: the row-partitioned concurrent brightness adjustment (rows
split into `ceil(alto/numHilos)`-sized disjoint contiguous ranges, with
`clamp(sample+delta,0,255)` applied per channel) produces a grid identical
to the single-threaded row-by-row application of the same transform, for
any worker count ≥ 1 (in particular for any count in `[1, alto]`, and for
the C code's fixed count 2). -/
theorem ajustarBrillo_concurrente_eq_secuencial (alto ancho canales : Nat)
    (delta : Int) (numHilos : Nat) (hn : 1 ≤ numHilos)
    (g : Nat → Nat → Nat → Nat) :
    ajustarBrilloConcurrente alto ancho canales delta numHilos g
      = ajustarBrilloSecuencial alto ancho canales delta g := by
  funext y x c
  simp only [ajustarBrilloConcurrente, ajustarBrilloSecuencial]
  rw [correrHilos_pointwise]
  have hge : alto ≤ numHilos * ((alto + numHilos - 1) / numHilos) :=
    ceil_div_mul_ge alto numHilos hn
  have e0 : (0 + numHilos) * ((alto + numHilos - 1) / numHilos)
      = numHilos * ((alto + numHilos - 1) / numHilos) := by ring
  rw [e0, min_eq_right hge]
  simp [Nat.zero_le]

/-- Witness for C3's theorem at a concrete input (the spec's 4×4 scenario
with `delta = -150` and the C code's 2 workers). -/
theorem ajustarBrillo_concurrente_eq_secuencial_witness :
    ajustarBrilloConcurrente 4 4 1 (-150) 2 (fun _ _ _ => 100)
      = ajustarBrilloSecuencial 4 4 1 (-150) (fun _ _ _ => 100) :=
  ajustarBrillo_concurrente_eq_secuencial 4 4 1 (-150) 2 (by decide)
    (fun _ _ _ => 100)

/-- Claim C7: `generarKernelGaussiano` rejects an even or non-positive
size, and a non-positive sigma, in both cases before any storage is
allocated: the returned heap is exactly the input heap. -/
theorem generarKernel_validacion (falla : Nat → Bool) (expF : ℚ → ℚ)
    (piF : ℚ) (tamKernel : Int) (sigma : ℚ) (h : Heap) :
    ((tamKernel ≤ 0 ∨ tamKernel % 2 = 0) →
      generarKernelGaussiano falla expF piF tamKernel sigma h
        = (Except.error ErrorKernel.tamanoPar, h)) ∧
    (¬(tamKernel ≤ 0 ∨ tamKernel % 2 = 0) → sigma ≤ 0 →
      generarKernelGaussiano falla expF piF tamKernel sigma h
        = (Except.error ErrorKernel.sigmaNoPositivo, h)) := by
  constructor
  · intro hv
    unfold generarKernelGaussiano
    rw [if_pos hv]
  · intro hv hs
    unfold generarKernelGaussiano
    rw [if_neg hv, if_pos hs]

/-- Witness for C7's theorem: the spec's concrete scenario
`gaussianKernel(size=4, sigma=1.0)` fails with the even-size error and an
untouched heap. -/
theorem generarKernel_validacion_witness :
    generarKernelGaussiano (fun _ => false) (fun q => q) 1 4 1 ⟨0, ∅⟩
      = (Except.error ErrorKernel.tamanoPar, ⟨0, ∅⟩) :=
  (generarKernel_validacion (fun _ => false) (fun q => q) 1 4 1 ⟨0, ∅⟩).1
    (Or.inr (by decide))

/-- Claim C10: when the decoder reports a channel count other than 1 or 3,
`cargarImagen` sets the grid's channel count to 1 and re-reads the buffer
with stride 1: the grayscale sample at `(y,x)` is `datos[y*ancho+x]`, the
first `alto*ancho` bytes of the buffer, not the first channel of each
n-channel pixel. -/
theorem cargar_canales_coercion (datos : Nat → Nat)
    (ancho alto canalesOrig : Nat) (h1 : canalesOrig ≠ 1)
    (h3 : canalesOrig ≠ 3) :
    (cargarImagenDatos datos ancho alto canalesOrig).canales = 1 ∧
    ∀ y x, (cargarImagenDatos datos ancho alto canalesOrig).pix y x 0
      = datos (y * ancho + x) := by
  have hcoerce : (if canalesOrig = 1 ∨ canalesOrig = 3 then canalesOrig else 1)
      = 1 := by
    rw [if_neg]
    rintro (hc | hc) <;> [exact h1 hc; exact h3 hc]
  constructor
  · simp [cargarImagenDatos, hcoerce]
  · intro y x
    simp [cargarImagenDatos, hcoerce]

/-- Witness for C10's theorem at a 4-channel (RGBA-style) report. -/
theorem cargar_canales_coercion_witness :
    (cargarImagenDatos (fun n => n) 5 5 4).canales = 1 :=
  (cargar_canales_coercion (fun n => n) 5 5 4 (by decide) (by decide)).1

/-- Claim C4: `asignarMatriz3D` rejects non-positive dimensions with no
storage reserved, and on an allocation failure at any level releases every
block acquired by the call before returning (live set restored), so the
caller observes either a fully allocated grid (`alto` rows of `ancho`
pixel blocks each) or nothing. -/
theorem asignarMatriz3D_atomico (falla : Nat → Bool) (alto ancho canales : Int)
    (h : Heap) (hw : Heap.wf h) :
    ((alto ≤ 0 ∨ ancho ≤ 0 ∨ canales ≤ 0) →
      asignarMatriz3D falla alto ancho canales h = (none, h)) ∧
    ((asignarMatriz3D falla alto ancho canales h).1 = none →
      (asignarMatriz3D falla alto ancho canales h).2.live = h.live) ∧
    (∀ m filas,
      (asignarMatriz3D falla alto ancho canales h).1 = some (m, filas) →
      filas.length = alto.toNat ∧ ∀ f ∈ filas, f.2.length = ancho.toNat) := by
  by_cases hv : alto ≤ 0 ∨ ancho ≤ 0 ∨ canales ≤ 0
  · have heq : asignarMatriz3D falla alto ancho canales h = (none, h) := by
      unfold asignarMatriz3D
      rw [if_pos hv]
    rw [heq]
    exact ⟨fun _ => rfl, fun _ => rfl, fun m filas hc => by simp at hc⟩
  · by_cases hf : falla h.next
    · have heq : asignarMatriz3D falla alto ancho canales h
          = (none, ⟨h.next + 1, h.live⟩) := by
        unfold asignarMatriz3D
        rw [if_neg hv]
        simp [malloc, hf]
      rw [heq]
      exact ⟨fun hc => absurd hc hv, fun _ => rfl,
        fun m filas hc => by simp at hc⟩
    · have hw1 : Heap.wf ⟨h.next + 1, insert h.next h.live⟩ := by
        intro b hb
        show b < h.next + 1
        rcases Finset.mem_insert.mp hb with hb | hb
        · omega
        · exact Nat.lt_succ_of_lt (hw b hb)
      obtain ⟨flNone, flSome, flNext, flWf⟩ :=
        asignarFilas_spec falla ancho.toNat alto.toNat
          ⟨h.next + 1, insert h.next h.live⟩ hw1
      rcases hq : asignarFilas falla ancho.toNat alto.toNat
        ⟨h.next + 1, insert h.next h.live⟩ with ⟨oq, h2⟩
      rw [hq] at flNone flSome flNext flWf
      cases oq with
      | none =>
        have heq : asignarMatriz3D falla alto ancho canales h
            = (none, free h.next h2) := by
          unfold asignarMatriz3D
          rw [if_neg hv]
          simp [malloc, hf, hq]
        rw [heq]
        refine ⟨fun hc => absurd hc hv, fun _ => ?_,
          fun m filas hc => by simp at hc⟩
        have h2l : h2.live = insert h.next h.live := flNone rfl
        show h2.live.erase h.next = h.live
        rw [h2l]
        exact Finset.erase_insert (fun hc => Nat.lt_irrefl _ (hw _ hc))
      | some filas =>
        obtain ⟨-, -, flLen, flAncho⟩ := flSome filas rfl
        have heq : asignarMatriz3D falla alto ancho canales h
            = (some (h.next, filas), h2) := by
          unfold asignarMatriz3D
          rw [if_neg hv]
          simp [malloc, hf, hq]
        rw [heq]
        refine ⟨fun hc => absurd hc hv, fun hc => by simp at hc, ?_⟩
        intro m gs hgs
        have hgs' : m = h.next ∧ gs = filas := by
          have := hgs
          simp only [Option.some.injEq, Prod.mk.injEq] at this
          exact ⟨this.1.symm, this.2.symm⟩
        obtain ⟨-, hgs2⟩ := hgs'
        subst hgs2
        exact ⟨flLen, flAncho⟩

/-- Witness for C4's theorem: a failure of the first row allocation on an
empty heap rolls back to an empty live set. -/
theorem asignarMatriz3D_atomico_witness :
    Heap.wf ⟨0, ∅⟩ ∧
    ((asignarMatriz3D (fun n => decide (n = 1)) 2 2 1 ⟨0, ∅⟩).1 = none →
      (asignarMatriz3D (fun n => decide (n = 1)) 2 2 1 ⟨0, ∅⟩).2.live
        = (⟨0, ∅⟩ : Heap).live) :=
  ⟨fun b hb => absurd hb (Finset.not_mem_empty b),
    (asignarMatriz3D_atomico (fun n => decide (n = 1)) 2 2 1 ⟨0, ∅⟩
      (fun b hb => absurd hb (Finset.not_mem_empty b))).2.1⟩

/-- Claim C9: `liberarImagen` is idempotent and total: it always resets
the structure to the empty state; on an empty/already-released grid the
heap is untouched (no-op); on a populated grid every block of every level
(pixel channel blocks, row blocks, top block) is removed from the live
set. -/
theorem liberarImagen_idempotente (s : ImagenInfo × Heap) :
    liberarImagen (liberarImagen s) = liberarImagen s ∧
    (liberarImagen s).1 = ⟨0, 0, 0, none⟩ ∧
    (s.1.pixeles = none → (liberarImagen s).2 = s.2) ∧
    (∀ m filas, s.1.pixeles = some (m, filas) →
      (liberarImagen s).2.live
        = s.2.live \ (m :: bloquesFilas filas).toFinset) := by
  rcases hp : s.1.pixeles with - | ⟨m, filas⟩
  · have heq : liberarImagen s = (⟨0, 0, 0, none⟩, s.2) := by
      unfold liberarImagen
      rw [hp]
    rw [heq]
    exact ⟨rfl, rfl, fun _ => rfl, fun m filas hc => by simp at hc⟩
  · have heq : liberarImagen s
        = (⟨0, 0, 0, none⟩,
            free m (filas.foldl (fun h f => free f.1 (liberarLista f.2 h)) s.2)) := by
      unfold liberarImagen
      rw [hp]
    rw [heq]
    refine ⟨rfl, rfl, fun hc => by simp at hc, ?_⟩
    intro m' filas' hmf
    simp only [Option.some.injEq, Prod.mk.injEq] at hmf
    obtain ⟨hm, hf⟩ := hmf
    subst hm
    subst hf
    show ((filas.foldl (fun h f => free f.1 (liberarLista f.2 h)) s.2).live).erase m
      = s.2.live \ (m :: bloquesFilas filas).toFinset
    rw [liberarFilas_live]
    ext a
    simp only [Finset.mem_erase, Finset.mem_sdiff, List.toFinset_cons,
      Finset.mem_insert, List.mem_toFinset]
    tauto

/-- Witness for C9's theorem on a concrete populated image. -/
theorem liberarImagen_idempotente_witness :
    liberarImagen (liberarImagen (⟨⟨1, 1, 1, some (0, [(1, [2])])⟩, ⟨6, {0, 1, 2, 5}⟩⟩))
        = liberarImagen (⟨⟨1, 1, 1, some (0, [(1, [2])])⟩, ⟨6, {0, 1, 2, 5}⟩⟩) ∧
    (liberarImagen (⟨⟨1, 1, 1, some (0, [(1, [2])])⟩, ⟨6, {0, 1, 2, 5}⟩⟩)).2.live
        = (⟨6, {0, 1, 2, 5}⟩ : Heap).live \ (0 :: bloquesFilas [(1, [2])]).toFinset :=
  ⟨(liberarImagen_idempotente _).1,
    (liberarImagen_idempotente
      (⟨⟨1, 1, 1, some (0, [(1, [2])])⟩, ⟨6, {0, 1, 2, 5}⟩⟩)).2.2.2 0 [(1, [2])] rfl⟩

/-- Claim C5: building the 3-level grid from a flat row-major interleaved
buffer and flattening it back yields the original buffer, for any valid
dimensions with channel count 1 or 3. -/
theorem cargar_guardar_identidad (datos : Nat → Nat) (ancho alto canales : Nat)
    (hancho : 0 < ancho) (halto : 0 < alto) (hc : canales = 1 ∨ canales = 3) :
    guardarDatos (cargarImagenDatos datos ancho alto canales)
      = (List.range (alto * ancho * canales)).map datos := by
  have hcoerce : (if canales = 1 ∨ canales = 3 then canales else 1) = canales :=
    if_pos hc
  simp only [guardarDatos, cargarImagenDatos, hcoerce]
  have hinner : ∀ y : Nat,
      (List.range ancho).flatMap
          (fun x => (List.range canales).map fun c =>
            datos ((y * ancho + x) * canales + c))
        = (List.range (ancho * canales)).map
            fun j => datos (y * (ancho * canales) + j) := by
    intro y
    have hidx : ∀ x c : Nat,
        (y * ancho + x) * canales + c
          = y * (ancho * canales) + (x * canales + c) := by
      intro x c
      ring
    have hfun : (fun x => (List.range canales).map fun c =>
          datos ((y * ancho + x) * canales + c))
        = fun x => (List.range canales).map fun c =>
          datos (y * (ancho * canales) + (x * canales + c)) := by
      funext x
      refine congrArg (fun f => List.map f (List.range canales)) ?_
      funext c
      exact congrArg datos (hidx x c)
    rw [hfun]
    exact range_flatMap_map canales (fun j => datos (y * (ancho * canales) + j))
      ancho
  have houter : (fun y => (List.range ancho).flatMap
        (fun x => (List.range canales).map fun c =>
          datos ((y * ancho + x) * canales + c)))
      = fun y => (List.range (ancho * canales)).map
          fun j => datos (y * (ancho * canales) + j) := funext hinner
  rw [houter,
    range_flatMap_map (ancho * canales) datos alto, ← Nat.mul_assoc]

/-- Witness for C5's theorem on a concrete RGB buffer. -/
theorem cargar_guardar_identidad_witness :
    guardarDatos (cargarImagenDatos (fun n => n) 2 1 3)
      = (List.range (1 * 2 * 3)).map (fun n => n) :=
  cargar_guardar_identidad (fun n => n) 2 1 3 (by decide) (by decide)
    (Or.inr rfl)

/-- Claim C6: at an in-bounds integer coordinate the bilinear weights
degenerate (`a = b = 0`), the rounding step is the identity, and the
sampler returns exactly the stored sample. -/
theorem interpolacion_en_enteros (g : ImagenGrid) (x y c : Nat)
    (hx : x < g.ancho) (hy : y < g.alto) (hc : c < g.canales) :
    interpolacionBilineal g (x : ℚ) (y : ℚ) c = some (g.pix y x c) := by
  have hfx : ⌊((x : Nat) : ℚ)⌋ = (x : Int) := Int.floor_natCast x
  have hfy : ⌊((y : Nat) : ℚ)⌋ = (y : Int) := Int.floor_natCast y
  have hx0 : clampInf ((x : Nat) : Int) = (x : Int) := by
    unfold clampInf
    rw [if_neg (by omega)]
  have hy0 : clampInf ((y : Nat) : Int) = (y : Int) := by
    unfold clampInf
    rw [if_neg (by omega)]
  have hxa : ((x : Nat) : Int) < (g.ancho : Int) := by exact_mod_cast hx
  have hya : ((y : Nat) : Int) < (g.alto : Int) := by exact_mod_cast hy
  have hx1l : 0 ≤ clampSup ((x : Int) + 1) (g.ancho : Int) := by
    unfold clampSup
    split_ifs <;> omega
  have hx1r : clampSup ((x : Int) + 1) (g.ancho : Int) < (g.ancho : Int) := by
    unfold clampSup
    split_ifs <;> omega
  have hy1l : 0 ≤ clampSup ((y : Int) + 1) (g.alto : Int) := by
    unfold clampSup
    split_ifs <;> omega
  have hy1r : clampSup ((y : Int) + 1) (g.alto : Int) < (g.alto : Int) := by
    unfold clampSup
    split_ifs <;> omega
  have hr00 : leerPixel g (y : Int) (x : Int) c = some (g.pix y x c) := by
    unfold leerPixel
    rw [if_pos ⟨by omega, hya, by omega, hxa, hc⟩]
    try simp
  have hr10 : leerPixel g (y : Int) (clampSup ((x : Int) + 1) (g.ancho : Int)) c
      = some (g.pix y (clampSup ((x : Int) + 1) (g.ancho : Int)).toNat c) := by
    unfold leerPixel
    rw [if_pos ⟨by omega, hya, hx1l, hx1r, hc⟩]
    try simp
  have hr01 : leerPixel g (clampSup ((y : Int) + 1) (g.alto : Int)) (x : Int) c
      = some (g.pix (clampSup ((y : Int) + 1) (g.alto : Int)).toNat x c) := by
    unfold leerPixel
    rw [if_pos ⟨hy1l, hy1r, by omega, hxa, hc⟩]
    try simp
  have hr11 : leerPixel g (clampSup ((y : Int) + 1) (g.alto : Int))
        (clampSup ((x : Int) + 1) (g.ancho : Int)) c
      = some (g.pix (clampSup ((y : Int) + 1) (g.alto : Int)).toNat
          (clampSup ((x : Int) + 1) (g.ancho : Int)).toNat c) := by
    unfold leerPixel
    rw [if_pos ⟨hy1l, hy1r, hx1l, hx1r, hc⟩]
    try simp
  have ha : ((x : Nat) : ℚ) - (((x : Nat) : Int) : ℚ) = 0 := by
    push_cast
    ring
  have hb : ((y : Nat) : ℚ) - (((y : Nat) : Int) : ℚ) = 0 := by
    push_cast
    ring
  simp only [interpolacionBilineal, hfx, hfy, hx0, hy0, hr00, hr10, hr01,
    hr11, ha, hb]
  norm_num

/-- Witness for C6's theorem at a concrete grid point. -/
theorem interpolacion_en_enteros_witness :
    interpolacionBilineal ⟨2, 2, 1, fun y x _ => 10 * y + x⟩
      ((1 : Nat) : ℚ) ((0 : Nat) : ℚ) 0 = some 1 :=
  interpolacion_en_enteros ⟨2, 2, 1, fun y x _ => 10 * y + x⟩ 1 0 0
    (by decide) (by decide) (by decide)

/-- On the success path (valid parameters, allocations succeeded) the
kernel returned by `generarKernelGaussiano` is the raw Gaussian tap matrix
divided by its total sum when that sum is positive, and the raw matrix
itself otherwise. -/
lemma generarKernel_ok (falla : Nat → Bool) (expF : ℚ → ℚ) (piF : ℚ)
    (tamKernel : Int) (sigma : ℚ) (h : Heap) (ks : List (List ℚ)) (hh : Heap)
    (hv : ¬(tamKernel ≤ 0 ∨ tamKernel % 2 = 0)) (hs2 : ¬(sigma ≤ 0))
    (hgen : generarKernelGaussiano falla expF piF tamKernel sigma h
      = (Except.ok ks, hh)) :
    ks = normalizarKernel (kernelCrudo expF piF tamKernel.toNat sigma) := by
  unfold generarKernelGaussiano at hgen
  rw [if_neg hv, if_neg hs2] at hgen
  split at hgen
  · simp at hgen
  · split at hgen
    · simp at hgen
    · simp only [Prod.mk.injEq, Except.ok.injEq] at hgen
      exact hgen.1.symm

/-- Claim C8: for a valid odd positive size and positive sigma, whenever
the raw Gaussian sum is strictly positive the returned taps are the raw
taps divided by that sum — so they sum to exactly 1 in the rational model
of the float arithmetic (hence to 1.0 within any floating-point
tolerance) — and when the raw sum is not positive the taps are returned
unnormalized. -/
theorem kernel_normalizado (expF : ℚ → ℚ) (piF : ℚ) (tamKernel : Int)
    (sigma : ℚ) (ht : 0 < tamKernel) (hodd : tamKernel % 2 = 1)
    (hs : 0 < sigma) :
    (0 < ((kernelCrudo expF piF tamKernel.toNat sigma).map List.sum).sum →
      ∀ (falla : Nat → Bool) (h : Heap) (ks : List (List ℚ)) (hh : Heap),
        generarKernelGaussiano falla expF piF tamKernel sigma h
          = (Except.ok ks, hh) →
        ks = (kernelCrudo expF piF tamKernel.toNat sigma).map
            (fun fila => fila.map fun v =>
              v / ((kernelCrudo expF piF tamKernel.toNat sigma).map
                List.sum).sum) ∧
        (ks.map List.sum).sum = 1) ∧
    (((kernelCrudo expF piF tamKernel.toNat sigma).map List.sum).sum ≤ 0 →
      ∀ (falla : Nat → Bool) (h : Heap) (ks : List (List ℚ)) (hh : Heap),
        generarKernelGaussiano falla expF piF tamKernel sigma h
          = (Except.ok ks, hh) →
        ks = kernelCrudo expF piF tamKernel.toNat sigma) := by
  have hv : ¬(tamKernel ≤ 0 ∨ tamKernel % 2 = 0) := by omega
  have hs2 : ¬(sigma ≤ 0) := not_le.mpr hs
  constructor
  · intro hpos falla h ks hh hgen
    have hks := generarKernel_ok falla expF piF tamKernel sigma h ks hh hv
      hs2 hgen
    simp only [normalizarKernel] at hks
    rw [if_pos hpos] at hks
    subst hks
    refine ⟨rfl, ?_⟩
    rw [suma_kernel_div]
    exact div_self (ne_of_gt hpos)
  · intro hneg falla h ks hh hgen
    have hks := generarKernel_ok falla expF piF tamKernel sigma h ks hh hv
      hs2 hgen
    simp only [normalizarKernel] at hks
    rw [if_neg (not_lt.mpr hneg)] at hks
    exact hks

/-- Witness for C8's theorem: the 1×1 kernel with `sigma = 1` and the
abstract exponential `fun _ => 1` has raw sum `1/2 > 0` and normalizes to
`[[1]]`, which sums to 1. -/
theorem kernel_normalizado_witness : (([[(1 : ℚ)]].map List.sum).sum = 1) :=
  ((kernel_normalizado (fun _ => 1) 1 1 1 (by decide) (by decide)
      (by norm_num)).1
    (by with_unfolding_all decide) (fun _ => false) ⟨0, ∅⟩ [[1]]
    ⟨2, insert 1 (insert 0 ∅)⟩ (by with_unfolding_all rfl)).2

end Procesador
